import Mathlib

/-!
# Verification of the spotify-archive core logic

Shallow embedding of the pure core of `spotify_archive/utils.py`:

* `get_tracks_info`, `filter_out_duplicates` (the merge engine),
* `find_duplicates_by_external_id` (the deduplicator),
* `make_chunks` (the chunking helper),
* `get_recommendations` (parameter validation) and the loop of
  `add_recommendations_to_all_time_playlist`,
* the pure part of `add_to_all_time_playlist`.

Remote-provider interactions are modelled by passing the fetched data in as
arguments and returning the request payloads / call indicators as results.
Python timestamps (`added_at`) are ISO-8601 strings; the code only ever
compares them with Python's lexicographic string order, which on these
fixed-width timestamps coincides with chronological order, so they are
embedded as naturals carrying that total order (string identifiers, which
are only tested for equality, stay `String`).  Python `set`s are modelled as lists whose membership relation is the
relevant observable; where the set's iteration order matters it is modelled
as first-insertion order, and only order-independent facts (cardinality,
membership, distinctness) are proved about it.
-/

/-- `MAX_SEEDS = 5` (utils.py line 15). -/
def MAX_SEEDS : Nat := 5

/-- A Spotify track object, reduced to the two fields the core reads:
`t.get("external_ids", {}).get("isrc")` (absent modelled as `none`) and
`t["id"]`. -/
structure Track where
  external_id : Option String
  id : String
  deriving DecidableEq

/-- A playlist item as returned by `playlist_items`:
`{"track": <track object>, "added_at": <ISO timestamp string>}`. -/
structure Item where
  track : Track
  added_at : Nat
  deriving DecidableEq

/-- The `TrackInfo` NamedTuple of utils.py. -/
structure TrackInfo where
  external_id : Option String
  uri : String
  position : Nat
  added_at : Nat
  deriving DecidableEq

/-- The element-wise body of `get_tracks_info`, with `pos` tracking the
index supplied by `enumerate(tracks)`. -/
def get_tracks_info_go : Nat → List Item → List TrackInfo
  | _, [] => []
  | pos, t :: ts =>
    ⟨t.track.external_id, t.track.id, pos, t.added_at⟩ :: get_tracks_info_go (pos + 1) ts

/-- `get_tracks_info(tracks)`: one `TrackInfo` per item, positions assigned
by `enumerate` starting at 0. -/
def get_tracks_info (tracks : List Item) : List TrackInfo :=
  get_tracks_info_go 0 tracks

/-- An element of a `new_tracks` argument: either a playlist item (from a
playlist fetch) or a bare track object (from recommendations).  Line 296,
`t.get("track", t)`, unwraps the former and keeps the latter. -/
abbrev Candidate := Item ⊕ Track

/-- `t.get("track", t)` of line 296 of utils.py. -/
def normTrack : Candidate → Track
  | .inl item => item.track
  | .inr t => t

/-- The set `{t.external_id for t in tracks_info}` of line 290 of utils.py,
as a list with the same membership.  Note that it contains `none` whenever
some existing item has no ISRC. -/
def existing_external_ids (tracks : List Item) : List (Option String) :=
  (get_tracks_info tracks).map (fun t => t.external_id)

/-- The set `{t.uri for t in tracks_info}` of line 293 of utils.py. -/
def existing_uris (tracks : List Item) : List String :=
  (get_tracks_info tracks).map (fun t => t.uri)

/-- `filter_out_duplicates(tracks, new_tracks)` (utils.py lines 277-305):
keep a (unwrapped) new track iff its ISRC is not in the existing
external-id set and its id is not in the existing uri set. -/
def filter_out_duplicates (tracks : List Item) (new_tracks : List Candidate) : List Track :=
  let tracks_external_ids := existing_external_ids tracks
  let tracks_uris := existing_uris tracks
  let unwrapped := new_tracks.map normTrack
  unwrapped.filter (fun t =>
    decide (t.external_id ∉ tracks_external_ids) && decide (t.id ∉ tracks_uris))

/-- The pure content of `add_to_all_time_playlist` (utils.py lines 206-235),
with the fetched playlist contents passed in as `allTracks`.  The first
component is the returned value (`none` modelling an uncaught exception),
the second records whether `client.playlist_add_items` was called.

Line 227 evaluates `t["track"]["id"]` on the elements returned by
`filter_out_duplicates`; those are unwrapped (flat) track objects, which
have no `"track"` key, so the comprehension raises `KeyError` as soon as
the filtered list is non-empty.  With an empty filtered list the
comprehension yields `[]` and the function returns `[]` without calling
`playlist_add_items`. -/
def add_to_all_time_playlist (allTracks : List Item) (tracks : List Candidate) :
    Option (List String) × Bool :=
  match filter_out_duplicates allTracks tracks with
  | [] => (some [], false)
  | _ :: _ => (none, false)

theorem get_tracks_info_go_map_external_id (pos : Nat) (l : List Item) :
    (get_tracks_info_go pos l).map (fun t => t.external_id)
      = l.map (fun t => t.track.external_id) := by
  induction l generalizing pos with
  | nil => rfl
  | cons t ts ih => simp [get_tracks_info_go, ih]

theorem get_tracks_info_go_map_uri (pos : Nat) (l : List Item) :
    (get_tracks_info_go pos l).map (fun t => t.uri) = l.map (fun t => t.track.id) := by
  induction l generalizing pos with
  | nil => rfl
  | cons t ts ih => simp [get_tracks_info_go, ih]

/-- Concrete existing item with no ISRC (for the C2 counterexample). -/
def c2ExistingItem : Item := ⟨⟨none, "x"⟩, 20220101⟩

/-- Concrete candidate with no ISRC and a fresh native id. -/
def c2Cand : Candidate := .inr ⟨none, "z"⟩

/-- C2 counterexample: for an existing playlist whose only item has a null
external id and a candidate with null external id and a fresh native id,
`filter_out_duplicates` excludes the candidate (returns `[]`) although the
claimed exclusion condition (non-null external-id match, or native-id
match) is false: `None` is itself a member of the set built on line 290 of
utils.py, so null matches null. -/
theorem c2_counterexample :
    filter_out_duplicates [c2ExistingItem] [c2Cand] = [] ∧
      ¬(((normTrack c2Cand).external_id ≠ none ∧
          (normTrack c2Cand).external_id ∈ existing_external_ids [c2ExistingItem]) ∨
        (normTrack c2Cand).id ∈ existing_uris [c2ExistingItem]) := by
  decide

theorem filter_out_duplicates_mem_iff (tracks : List Item)
    (new_tracks : List Candidate) (c : Candidate) (hc : c ∈ new_tracks) :
    normTrack c ∈ filter_out_duplicates tracks new_tracks ↔
      ¬((normTrack c).external_id ∈ existing_external_ids tracks ∨
        (normTrack c).id ∈ existing_uris tracks) := by
  unfold filter_out_duplicates
  simp only [List.mem_filter, List.mem_map, Bool.and_eq_true, decide_eq_true_eq]
  constructor
  · rintro ⟨-, hext, huri⟩
    tauto
  · intro h
    exact ⟨⟨c, hc, rfl⟩, by tauto, by tauto⟩

/-- C2 (amended): a candidate of `new_tracks` appears in the output of
`filter_out_duplicates` iff its (possibly null) external id is not among
the external ids of the existing items — so a null-external candidate is
excluded exactly when some existing item also has a null external id — and
its native id is not among the existing native ids. -/
theorem c2_filter_out_duplicates_mem (tracks : List Item) (new_tracks : List Candidate)
    (c : Candidate) (hc : c ∈ new_tracks) :
    normTrack c ∈ filter_out_duplicates tracks new_tracks ↔
      ¬((normTrack c).external_id ∈ existing_external_ids tracks ∨
        (normTrack c).id ∈ existing_uris tracks) :=
  filter_out_duplicates_mem_iff tracks new_tracks c hc

/-- Witness for `c2_filter_out_duplicates_mem` at a concrete input. -/
theorem c2_witness :
    c2Cand ∈ [c2Cand] ∧
      (normTrack c2Cand ∈ filter_out_duplicates [c2ExistingItem] [c2Cand] ↔
        ¬((normTrack c2Cand).external_id ∈ existing_external_ids [c2ExistingItem] ∨
          (normTrack c2Cand).id ∈ existing_uris [c2ExistingItem])) :=
  ⟨by simp, c2_filter_out_duplicates_mem [c2ExistingItem] [c2Cand] c2Cand (by simp)⟩

/-- C5: `filter_out_duplicates` preserves the relative candidate order (its
output is a sublist of the unwrapped candidate sequence), is empty iff
every candidate is excluded, and on an empty result the caller
`add_to_all_time_playlist` returns the empty list without calling
`playlist_add_items`. -/
theorem c5_additions_order_and_empty (tracks : List Item) (new_tracks : List Candidate) :
    List.Sublist (filter_out_duplicates tracks new_tracks) (new_tracks.map normTrack) ∧
      (filter_out_duplicates tracks new_tracks = [] ↔
        ∀ c ∈ new_tracks,
          (normTrack c).external_id ∈ existing_external_ids tracks ∨
            (normTrack c).id ∈ existing_uris tracks) ∧
      (filter_out_duplicates tracks new_tracks = [] →
        add_to_all_time_playlist tracks new_tracks = (some [], false)) := by
  refine ⟨List.filter_sublist _, ?_, ?_⟩
  · unfold filter_out_duplicates
    simp only [List.filter_eq_nil_iff, List.mem_map, Bool.and_eq_true, decide_eq_true_eq,
      not_and, forall_exists_index, and_imp]
    constructor
    · intro h c hc
      by_contra hcon
      push_neg at hcon
      exact (h _ c hc rfl hcon.1) hcon.2
    · rintro h t c hc rfl hext
      rcases h c hc with h' | h'
      · exact absurd h' hext
      · exact fun h'' => h'' h'
  · intro h
    unfold add_to_all_time_playlist
    rw [h]

/-- Witness for `c5_additions_order_and_empty` at a concrete input where
the filtered result is empty (the candidate's ISRC matches). -/
theorem c5_witness :
    add_to_all_time_playlist [⟨⟨some "I1", "x"⟩, 1⟩] [.inr ⟨some "I1", "y"⟩]
      = (some [], false) :=
  (c5_additions_order_and_empty [⟨⟨some "I1", "x"⟩, 1⟩] [.inr ⟨some "I1", "y"⟩]).2.2
    (by decide)

/-- C9: whether a candidate survives `filter_out_duplicates` depends only on
the candidate itself and the existing sequence, never on the other
candidates; and there is no deduplication within the candidate batch: a
doubled candidate either survives doubled or is excluded entirely. -/
theorem c9_filter_batch_independent (tracks : List Item) (new₁ new₂ : List Candidate)
    (c : Candidate) (h₁ : c ∈ new₁) (h₂ : c ∈ new₂) :
    (normTrack c ∈ filter_out_duplicates tracks new₁ ↔
        normTrack c ∈ filter_out_duplicates tracks new₂) ∧
      (filter_out_duplicates tracks [c, c] = [normTrack c, normTrack c] ∨
        filter_out_duplicates tracks [c, c] = []) := by
  constructor
  · rw [filter_out_duplicates_mem_iff tracks new₁ c h₁,
      filter_out_duplicates_mem_iff tracks new₂ c h₂]
  · unfold filter_out_duplicates
    by_cases hA : (normTrack c).external_id ∈ existing_external_ids tracks
    · right; simp [hA]
    · by_cases hB : (normTrack c).id ∈ existing_uris tracks
      · right; simp [hB]
      · left; simp [hA, hB]

/-- Witness for `c9_filter_batch_independent` at concrete inputs. -/
theorem c9_witness :
    (normTrack c2Cand ∈ filter_out_duplicates [] [c2Cand] ↔
        normTrack c2Cand ∈ filter_out_duplicates [] [c2Cand, c2Cand]) ∧
      (filter_out_duplicates [] [c2Cand, c2Cand] = [normTrack c2Cand, normTrack c2Cand] ∨
        filter_out_duplicates [] [c2Cand, c2Cand] = []) :=
  c9_filter_batch_independent [] [c2Cand] [c2Cand, c2Cand] c2Cand (by simp) (by simp)

/-- Insert a `TrackInfo` in front of the first element whose `added_at` is
not strictly smaller. -/
def insertAdded (x : TrackInfo) : List TrackInfo → List TrackInfo
  | [] => [x]
  | y :: ys => if y.added_at < x.added_at then y :: insertAdded x ys else x :: y :: ys

/-- `d.sort(key=lambda x: x.added_at)` of line 332 of utils.py: Python's
`list.sort` is a stable ascending sort by the key.  Insertion sort with a
strict comparison is extensionally that sort; its sortedness, permutation
property and stability are proved below. -/
def sortAdded : List TrackInfo → List TrackInfo
  | [] => []
  | x :: xs => insertAdded x (sortAdded xs)

/-- `seen[t.external_id].append(t)` on an insertion-ordered dict (CPython
dicts preserve key insertion order): append to the group of `k` if the key
exists, otherwise open a new group at the end. -/
def insertSeen (k : String) (e : TrackInfo) :
    List (String × List TrackInfo) → List (String × List TrackInfo)
  | [] => [(k, [e])]
  | (k', es) :: rest =>
    if k' = k then (k', es ++ [e]) :: rest else (k', es) :: insertSeen k e rest

/-- One step of the loop on lines 323-325 of utils.py: entries with a null
external id are skipped. -/
def seenStep (m : List (String × List TrackInfo)) (t : TrackInfo) :
    List (String × List TrackInfo) :=
  match t.external_id with
  | none => m
  | some k => insertSeen k t m

/-- The `seen` dict after the loop on lines 322-325 of utils.py. -/
def buildSeen (tracks_info : List TrackInfo) : List (String × List TrackInfo) :=
  tracks_info.foldl seenStep []

/-- One element of the list returned by `find_duplicates_by_external_id`:
`{"uri": ..., "positions": [...]}`. -/
structure RemovalInstruction where
  uri : String
  positions : List Nat
  deriving DecidableEq

/-- `find_duplicates_by_external_id(tracks)` (utils.py lines 308-334):
group the track infos by non-null external id, keep the groups of size
> 1, sort each stably by `added_at` and emit one removal instruction per
entry beyond the first. -/
def find_duplicates_by_external_id (tracks : List Item) : List RemovalInstruction :=
  let tracks_info := get_tracks_info tracks
  let duplicates :=
    ((buildSeen tracks_info).map Prod.snd).filter (fun v => decide (1 < v.length))
  duplicates.flatMap (fun d => ((sortAdded d).drop 1).map (fun t => ⟨t.uri, [t.position]⟩))

/-- The non-null external ids in first-seen order. -/
def firstSeenKeys : List TrackInfo → List String
  | [] => []
  | t :: ts =>
    match t.external_id with
    | none => firstSeenKeys ts
    | some k => k :: (firstSeenKeys ts).filter (fun k' => decide (k' ≠ k))

/-- All entries carrying external id `k`, in fetch order. -/
def keyGroup (k : String) (tracks_info : List TrackInfo) : List TrackInfo :=
  tracks_info.filter (fun t => decide (t.external_id = some k))

/-- Specification-side restatement of the deduplicator, written from the
spec's words (§4.3/§8): for each external-id group of size > 1, taken in
first-seen key order, sort the group stably by `added_at` ascending and
emit one `{native_id, [original position]}` instruction per entry other
than the earliest one. -/
def findDuplicatesSpec (tracks : List Item) : List RemovalInstruction :=
  let ti := get_tracks_info tracks
  (firstSeenKeys ti).flatMap (fun k =>
    let g := keyGroup k ti
    if 1 < g.length then ((sortAdded g).drop 1).map (fun t => ⟨t.uri, [t.position]⟩)
    else [])

/-- The first entry of a group whose `added_at` is minimal in the group:
by the spec's tie-break rule, the canonical survivor. -/
def firstEarliest (g : List TrackInfo) : Option TrackInfo :=
  g.find? (fun t => g.all (fun u => decide (t.added_at ≤ u.added_at)))

theorem mem_insertAdded (x a : TrackInfo) (l : List TrackInfo) :
    a ∈ insertAdded x l ↔ a = x ∨ a ∈ l := by
  induction l with
  | nil => simp [insertAdded]
  | cons y ys ih =>
    by_cases h : y.added_at < x.added_at
    · simp [insertAdded, h, ih]; tauto
    · simp [insertAdded, h]

theorem length_insertAdded (x : TrackInfo) (l : List TrackInfo) :
    (insertAdded x l).length = l.length + 1 := by
  induction l with
  | nil => rfl
  | cons y ys ih =>
    by_cases h : y.added_at < x.added_at <;> simp [insertAdded, h, ih]

theorem perm_insertAdded (x : TrackInfo) (l : List TrackInfo) :
    (insertAdded x l).Perm (x :: l) := by
  induction l with
  | nil => simp [insertAdded]
  | cons y ys ih =>
    by_cases h : y.added_at < x.added_at
    · simp only [insertAdded, if_pos h]
      exact (ih.cons y).trans (List.Perm.swap x y ys)
    · simp [insertAdded, h]

theorem sortAdded_perm (l : List TrackInfo) : (sortAdded l).Perm l := by
  induction l with
  | nil => simp [sortAdded]
  | cons x xs ih => exact (perm_insertAdded x (sortAdded xs)).trans (ih.cons x)

theorem sortAdded_length (l : List TrackInfo) : (sortAdded l).length = l.length :=
  (sortAdded_perm l).length_eq

theorem pairwise_insertAdded (x : TrackInfo) (l : List TrackInfo)
    (h : l.Pairwise (fun a b => a.added_at ≤ b.added_at)) :
    (insertAdded x l).Pairwise (fun a b => a.added_at ≤ b.added_at) := by
  induction l with
  | nil => simp [insertAdded]
  | cons y ys ih =>
    rcases List.pairwise_cons.mp h with ⟨hy, hys⟩
    by_cases hlt : y.added_at < x.added_at
    · simp only [insertAdded, if_pos hlt]
      refine List.pairwise_cons.mpr ⟨?_, ih hys⟩
      intro a ha
      rcases (mem_insertAdded x a ys).mp ha with rfl | ha
      · exact le_of_lt hlt
      · exact hy a ha
    · simp only [insertAdded, if_neg hlt]
      refine List.pairwise_cons.mpr ⟨?_, h⟩
      intro a ha
      rcases List.mem_cons.mp ha with rfl | ha
      · exact le_of_not_lt hlt
      · exact le_trans (le_of_not_lt hlt) (hy a ha)

theorem sortAdded_pairwise (l : List TrackInfo) :
    (sortAdded l).Pairwise (fun a b => a.added_at ≤ b.added_at) := by
  induction l with
  | nil => simp [sortAdded]
  | cons x xs ih => exact pairwise_insertAdded x (sortAdded xs) ih

theorem filter_insertAdded (x : TrackInfo) (v : Nat) (l : List TrackInfo) :
    (insertAdded x l).filter (fun t => decide (t.added_at = v)) =
      if x.added_at = v then x :: l.filter (fun t => decide (t.added_at = v))
      else l.filter (fun t => decide (t.added_at = v)) := by
  induction l with
  | nil => by_cases h : x.added_at = v <;> simp [insertAdded, h]
  | cons y ys ih =>
    by_cases hlt : y.added_at < x.added_at
    · simp only [insertAdded, if_pos hlt, List.filter_cons]
      by_cases hx : x.added_at = v
      · have hy : ¬(y.added_at = v) := by
          intro h; rw [h, ← hx] at hlt; exact lt_irrefl _ hlt
        simp [hx, hy, ih]
      · by_cases hy : y.added_at = v <;> simp [hx, hy, ih]
    · simp only [insertAdded, if_neg hlt, List.filter_cons]
      by_cases hx : x.added_at = v <;> simp [hx]

/-- Stability of `sortAdded`: the subsequence of entries with any fixed
timestamp is exactly the input's. -/
theorem sortAdded_filter_added (v : Nat) (l : List TrackInfo) :
    (sortAdded l).filter (fun t => decide (t.added_at = v)) =
      l.filter (fun t => decide (t.added_at = v)) := by
  induction l with
  | nil => rfl
  | cons x xs ih =>
    simp only [sortAdded, filter_insertAdded, List.filter_cons, ih]
    by_cases hx : x.added_at = v <;> simp [hx]

theorem find?_eq_some_split {α : Type} (p : α → Bool) :
    ∀ (l : List α) (a : α), l.find? p = some a ↔
      p a = true ∧ ∃ l₁ l₂, l = l₁ ++ a :: l₂ ∧ ∀ x ∈ l₁, p x = false := by
  intro l
  induction l with
  | nil =>
    intro a
    constructor
    · intro h
      exact Option.noConfusion h
    · rintro ⟨-, l₁, l₂, h, -⟩
      cases l₁ <;> exact List.noConfusion h
  | cons b bs ih =>
    intro a
    by_cases hb : p b = true
    · rw [List.find?_cons_of_pos _ hb, Option.some.injEq]
      constructor
      · rintro rfl
        exact ⟨hb, [], bs, rfl, by simp⟩
      · rintro ⟨hpa, l₁, l₂, heq, hfail⟩
        cases l₁ with
        | nil =>
          simpa using congrArg List.head? heq
        | cons c l₁ =>
          rw [List.cons_append] at heq
          injection heq with hcb h2
          subst hcb
          have := hfail b (by simp)
          rw [hb] at this
          cases this
    · have hb' : p b = false := by simpa using hb
      rw [List.find?_cons_of_neg _ hb, ih a]
      constructor
      · rintro ⟨hpa, l₁, l₂, rfl, hfail⟩
        refine ⟨hpa, b :: l₁, l₂, rfl, ?_⟩
        intro x hx
        rcases List.mem_cons.mp hx with rfl | hx
        · exact hb'
        · exact hfail x hx
      · rintro ⟨hpa, l₁, l₂, heq, hfail⟩
        cases l₁ with
        | nil =>
          have h1 : b = a := by simpa using congrArg List.head? heq
          rw [h1] at hb
          exact absurd hpa hb
        | cons c l₁ =>
          rw [List.cons_append] at heq
          injection heq with hcb htail
          subst hcb
          exact ⟨hpa, l₁, l₂, htail, fun x hx => hfail x (by simp [hx])⟩

/-- The head of the stable sort is the first entry with minimal
`added_at` — the spec's tie-break rule. -/
theorem head_sortAdded_eq_firstEarliest (g : List TrackInfo) :
    (sortAdded g).head? = firstEarliest g := by
  induction g with
  | nil => rfl
  | cons x xs ih =>
    unfold firstEarliest at ih ⊢
    cases hs : sortAdded xs with
    | nil =>
      have hxs : xs = [] := by
        have := sortAdded_length xs
        rw [hs] at this
        exact List.length_eq_zero.mp this.symm
      subst hxs
      simp [sortAdded, insertAdded, List.find?]
    | cons h t =>
      rw [hs] at ih
      simp only [List.head?] at ih
      rcases (find?_eq_some_split _ xs h).mp ih.symm with ⟨hph, l₁, l₂, hsplit, hfail⟩
      have hhmin : ∀ u ∈ xs, h.added_at ≤ u.added_at := by
        intro u hu
        simpa using List.all_eq_true.mp hph u hu
      simp only [sortAdded, hs]
      by_cases hlt : h.added_at < x.added_at
      · -- x is inserted behind h: h stays the head, and x is not minimal,
        -- so h is still the first minimal entry of x :: xs
        simp only [insertAdded, if_pos hlt, List.head?]
        symm
        rw [find?_eq_some_split]
        refine ⟨?_, x :: l₁, l₂, by rw [hsplit, List.cons_append], ?_⟩
        · rw [List.all_eq_true]
          intro u hu
          rcases List.mem_cons.mp hu with rfl | hu
          · simp [le_of_lt hlt]
          · simpa using hhmin u hu
        · intro y hy
          rcases List.mem_cons.mp hy with rfl | hy
          · rw [Bool.eq_false_iff]
            intro hall
            have := List.all_eq_true.mp hall h (by simp [List.mem_cons, hsplit])
            simp only [decide_eq_true_eq] at this
            exact absurd this (not_le_of_lt hlt)
          · rw [Bool.eq_false_iff]
            intro hall
            have hyfail := hfail y hy
            have : ∀ u ∈ xs, y.added_at ≤ u.added_at := by
              intro u hu
              simpa using List.all_eq_true.mp hall u (by simp [hu])
            have : xs.all (fun u => decide (y.added_at ≤ u.added_at)) = true := by
              rw [List.all_eq_true]
              intro u hu
              simpa using this u hu
            rw [this] at hyfail
            cases hyfail
      · -- x goes in front: x itself is the first minimal entry of x :: xs
        simp only [insertAdded, if_neg hlt, List.head?]
        have hxmin : ∀ u ∈ x :: xs, x.added_at ≤ u.added_at := by
          intro u hu
          rcases List.mem_cons.mp hu with rfl | hu
          · exact le_refl _
          · exact le_trans (le_of_not_lt hlt) (hhmin u hu)
        have hpx : (fun t => (x :: xs).all (fun u => decide (t.added_at ≤ u.added_at))) x
            = true := by
          rw [List.all_eq_true]
          intro u hu
          simpa using hxmin u hu
        exact (@List.find?_cons_of_pos _
          (fun t => (x :: xs).all (fun u => decide (t.added_at ≤ u.added_at))) x xs hpx).symm

theorem keyGroup_cons_none {t : TrackInfo} {ts : List TrackInfo}
    (ht : t.external_id = none) : ∀ k, keyGroup k (t :: ts) = keyGroup k ts := by
  intro k
  simp [keyGroup, List.filter_cons, ht]

theorem keyGroup_cons_some_eq {t : TrackInfo} {ts : List TrackInfo} {k : String}
    (ht : t.external_id = some k) : keyGroup k (t :: ts) = t :: keyGroup k ts := by
  simp [keyGroup, List.filter_cons, ht]

theorem keyGroup_cons_some_ne {t : TrackInfo} {ts : List TrackInfo} {k : String}
    (ht : t.external_id = some k) : ∀ k', k' ≠ k → keyGroup k' (t :: ts) = keyGroup k' ts := by
  intro k' hne
  simp [keyGroup, List.filter_cons, ht, Ne.symm hne]

theorem firstSeenKeys_cons_none {t : TrackInfo} {ts : List TrackInfo}
    (ht : t.external_id = none) : firstSeenKeys (t :: ts) = firstSeenKeys ts := by
  simp [firstSeenKeys, ht]

theorem firstSeenKeys_cons_some {t : TrackInfo} {ts : List TrackInfo} {k : String}
    (ht : t.external_id = some k) :
    firstSeenKeys (t :: ts) =
      k :: (firstSeenKeys ts).filter (fun k' => decide (k' ≠ k)) := by
  simp [firstSeenKeys, ht]

theorem insertSeen_keys_of_mem (k : String) (e : TrackInfo) :
    ∀ m : List (String × List TrackInfo), k ∈ m.map Prod.fst →
      (insertSeen k e m).map Prod.fst = m.map Prod.fst := by
  intro m
  induction m with
  | nil => intro h; simp at h
  | cons p rest ih =>
    obtain ⟨k', es⟩ := p
    intro h
    by_cases hk : k' = k
    · simp [insertSeen, hk]
    · have hmem : k ∈ rest.map Prod.fst := by
        rcases List.mem_cons.mp h with h' | h'
        · exact absurd h'.symm hk
        · exact h'
      simp [insertSeen, hk, ih hmem]

theorem insertSeen_of_not_mem (k : String) (e : TrackInfo) :
    ∀ m : List (String × List TrackInfo), k ∉ m.map Prod.fst →
      insertSeen k e m = m ++ [(k, [e])] := by
  intro m
  induction m with
  | nil => intro h; rfl
  | cons p rest ih =>
    obtain ⟨k', es⟩ := p
    intro h
    have hk : ¬(k' = k) := by
      intro hk
      exact h (by simp [hk])
    have hmem : k ∉ rest.map Prod.fst := by
      intro hmem
      exact h (by simp [hmem])
    simp [insertSeen, hk, ih hmem]

theorem insertSeen_map_append (k : String) (e : TrackInfo)
    (f g : String → List TrackInfo) (hg : ∀ k', k' ≠ k → g k' = f k')
    (hk : g k = e :: f k) :
    ∀ m : List (String × List TrackInfo), (m.map Prod.fst).Nodup →
      k ∈ m.map Prod.fst →
      (insertSeen k e m).map (fun p => (p.1, p.2 ++ f p.1)) =
        m.map (fun p => (p.1, p.2 ++ g p.1)) := by
  intro m
  induction m with
  | nil => intro _ h; simp at h
  | cons p rest ih =>
    obtain ⟨k', es⟩ := p
    intro hnd hmem
    rw [List.map_cons] at hnd
    have hk'rest : k' ∉ rest.map Prod.fst := (List.nodup_cons.mp hnd).1
    have hndrest : (rest.map Prod.fst).Nodup := (List.nodup_cons.mp hnd).2
    by_cases hkk : k' = k
    · subst hkk
      simp [insertSeen, hk]
      intro a b hp
      have hmemp : a ∈ rest.map Prod.fst := List.mem_map_of_mem Prod.fst hp
      have hne : a ≠ k' := fun heq => hk'rest (heq ▸ hmemp)
      exact (hg a hne).symm
    · have hmem' : k ∈ rest.map Prod.fst := by
        rcases List.mem_cons.mp hmem with h' | h'
        · exact absurd h'.symm hkk
        · exact h'
      simp only [insertSeen, if_neg hkk, List.map_cons]
      rw [hg k' hkk, ih hndrest hmem']

theorem filter_filter_ne_of_mem (k : String) (ks : List String) (hk : k ∈ ks) :
    ∀ l : List String,
      (l.filter (fun k' => decide (k' ≠ k))).filter (fun k' => decide (k' ∉ ks)) =
        l.filter (fun k' => decide (k' ∉ ks)) := by
  intro l
  rw [List.filter_filter]
  refine List.filter_congr ?_
  intro a ha
  by_cases haks : a ∈ ks
  · simp [haks]
  · have hne : a ≠ k := fun heq => haks (heq ▸ hk)
    simp [haks, hne]

theorem filter_not_mem_append_singleton (k : String) (ks : List String) :
    ∀ l : List String,
      l.filter (fun k' => decide (k' ∉ ks ++ [k])) =
        (l.filter (fun k' => decide (k' ≠ k))).filter (fun k' => decide (k' ∉ ks)) := by
  intro l
  rw [List.filter_filter]
  refine List.filter_congr ?_
  intro a ha
  by_cases hak : a = k
  · subst hak
    simp
  · by_cases haks : a ∈ ks <;> simp [hak, haks]

/-- The loop of lines 322-325 of utils.py, started from an arbitrary
accumulated dict with distinct keys, produces: every existing group
extended by the matching entries, followed by one new group per
first-seen fresh key. -/
theorem foldl_seenStep_eq :
    ∀ (ti : List TrackInfo) (acc : List (String × List TrackInfo)),
      (acc.map Prod.fst).Nodup →
      ti.foldl seenStep acc =
        acc.map (fun p => (p.1, p.2 ++ keyGroup p.1 ti)) ++
          ((firstSeenKeys ti).filter (fun k => decide (k ∉ acc.map Prod.fst))).map
            (fun k => (k, keyGroup k ti)) := by
  intro ti
  induction ti with
  | nil =>
    intro acc hnd
    simp [keyGroup, firstSeenKeys]
  | cons t ts ih =>
    intro acc hnd
    rw [List.foldl_cons]
    cases ht : t.external_id with
    | none =>
      have hstep : seenStep acc t = acc := by simp [seenStep, ht]
      rw [hstep, ih acc hnd]
      simp only [keyGroup_cons_none ht, firstSeenKeys_cons_none ht]
    | some k =>
      have hstep : seenStep acc t = insertSeen k t acc := by simp [seenStep, ht]
      rw [hstep]
      by_cases hmem : k ∈ acc.map Prod.fst
      · have hkeys := insertSeen_keys_of_mem k t acc hmem
        have hnd' : ((insertSeen k t acc).map Prod.fst).Nodup := by
          rw [hkeys]; exact hnd
        rw [ih _ hnd', hkeys,
          insertSeen_map_append k t (fun k' => keyGroup k' ts)
            (fun k' => keyGroup k' (t :: ts)) (keyGroup_cons_some_ne ht)
            (keyGroup_cons_some_eq ht) acc hnd hmem]
        congr 1
        have h2 : (firstSeenKeys (t :: ts)).filter
              (fun k' => decide (k' ∉ acc.map Prod.fst)) =
            (firstSeenKeys ts).filter (fun k' => decide (k' ∉ acc.map Prod.fst)) := by
          rw [firstSeenKeys_cons_some ht, List.filter_cons,
            if_neg (by simp [hmem])]
          exact filter_filter_ne_of_mem k _ hmem _
        rw [h2]
        refine List.map_congr_left ?_
        intro k' hk'
        have hk'notin : k' ∉ acc.map Prod.fst := by
          have := (List.mem_filter.mp hk').2
          simpa using this
        have hne : k' ≠ k := fun heq => hk'notin (heq ▸ hmem)
        rw [keyGroup_cons_some_ne ht k' hne]
      · have hins := insertSeen_of_not_mem k t acc hmem
        have hkeys' : (insertSeen k t acc).map Prod.fst = acc.map Prod.fst ++ [k] := by
          rw [hins]; simp
        have hnd' : ((insertSeen k t acc).map Prod.fst).Nodup := by
          rw [hkeys']
          simp [List.nodup_append, hnd, hmem]
        rw [ih _ hnd', hkeys', hins, List.map_append,
          filter_not_mem_append_singleton k (acc.map Prod.fst) (firstSeenKeys ts)]
        have hacc : acc.map (fun p => (p.1, p.2 ++ keyGroup p.1 ts))
            = acc.map (fun p => (p.1, p.2 ++ keyGroup p.1 (t :: ts))) := by
          refine List.map_congr_left ?_
          intro p hp
          have hne : p.1 ≠ k := fun heq => hmem (heq ▸ List.mem_map_of_mem Prod.fst hp)
          rw [keyGroup_cons_some_ne ht p.1 hne]
        have htailmap : (((firstSeenKeys ts).filter (fun k' => decide (k' ≠ k))).filter
              (fun k' => decide (k' ∉ acc.map Prod.fst))).map
                (fun k' => (k', keyGroup k' ts))
            = (((firstSeenKeys ts).filter (fun k' => decide (k' ≠ k))).filter
              (fun k' => decide (k' ∉ acc.map Prod.fst))).map
                (fun k' => (k', keyGroup k' (t :: ts))) := by
          refine List.map_congr_left ?_
          intro k' hk'
          have hne : k' ≠ k := by
            have := (List.mem_filter.mp (List.mem_filter.mp hk').1).2
            simpa using this
          rw [keyGroup_cons_some_ne ht k' hne]
        rw [hacc, htailmap, firstSeenKeys_cons_some ht, List.filter_cons,
          if_pos (by simp [hmem])]
        simp [keyGroup_cons_some_eq ht, List.append_assoc]

/-- The `seen` dict is exactly: one entry per first-seen key, carrying the
full fetch-order group of that key. -/
theorem buildSeen_eq (ti : List TrackInfo) :
    buildSeen ti = (firstSeenKeys ti).map (fun k => (k, keyGroup k ti)) := by
  have h := foldl_seenStep_eq ti [] (by simp)
  simpa [buildSeen] using h

theorem filter_map_flatMap {α β γ : Type} (l : List α) (g : α → β) (p : β → Bool)
    (e : β → List γ) :
    ((l.map g).filter p).flatMap e =
      l.flatMap (fun a => if p (g a) then e (g a) else []) := by
  induction l with
  | nil => rfl
  | cons a as ih =>
    by_cases h : p (g a) = true
    · simp only [List.map_cons, List.filter_cons, if_pos h, List.flatMap_cons, ih]
    · simp only [List.map_cons, List.filter_cons, if_neg h, List.flatMap_cons, ih]
      simp

/-- Refinement: the implementation of the deduplicator computes exactly the
specification's description. -/
theorem find_duplicates_eq_spec (tracks : List Item) :
    find_duplicates_by_external_id tracks = findDuplicatesSpec tracks := by
  simp only [find_duplicates_by_external_id, findDuplicatesSpec]
  rw [buildSeen_eq, List.map_map, filter_map_flatMap]
  refine congrArg (List.flatMap (firstSeenKeys (get_tracks_info tracks)))
    (funext fun k => ?_)
  by_cases h : 1 < (keyGroup k (get_tracks_info tracks)).length <;> simp [h]

/-- C1: `find_duplicates_by_external_id` equals the spec's description —
for each external-id group of size > 1 taken in first-seen key order, one
`{uri, [original position]}` instruction per entry beyond the first of the
stably sorted group; null external ids and singleton groups contribute
nothing.  The remaining conjuncts pin down `sortAdded` as the stable
ascending sort by `added_at` (permutation, sortedness, stability) and
state that the kept survivor — the head of the sorted group — is the
first-fetched entry among those with minimal `added_at`. -/
theorem c1_find_duplicates_groups (tracks : List Item) :
    find_duplicates_by_external_id tracks = findDuplicatesSpec tracks ∧
      (∀ k, (sortAdded (keyGroup k (get_tracks_info tracks))).head? =
        firstEarliest (keyGroup k (get_tracks_info tracks))) ∧
      (∀ g : List TrackInfo, (sortAdded g).Perm g) ∧
      (∀ g : List TrackInfo,
        (sortAdded g).Pairwise (fun a b => a.added_at ≤ b.added_at)) ∧
      (∀ (g : List TrackInfo) (v : Nat),
        (sortAdded g).filter (fun t => decide (t.added_at = v)) =
          g.filter (fun t => decide (t.added_at = v))) :=
  ⟨find_duplicates_eq_spec tracks,
   fun _ => head_sortAdded_eq_firstEarliest _,
   sortAdded_perm, sortAdded_pairwise, fun g v => sortAdded_filter_added v g⟩

/-- The C3 scenario: external ids `[A, A, B, A]`, timestamps
`[t3, t1, t2, t1]` (embedded as `3, 1, 2, 1`), positions `[0, 1, 2, 3]`. -/
def c3Tracks : List Item :=
  [⟨⟨some "A", "n0"⟩, 3⟩, ⟨⟨some "A", "n1"⟩, 1⟩,
   ⟨⟨some "B", "n2"⟩, 2⟩, ⟨⟨some "A", "n3"⟩, 1⟩]

/-- C3 counterexample: the claimed output lists the instruction for
position 0 first, but the code emits instructions in ascending `added_at`
order of the removed entries (the order of `d[1:]` after the sort), so the
position-3 entry (timestamp t1) comes first. -/
theorem c3_counterexample :
    find_duplicates_by_external_id c3Tracks ≠
      [⟨"n0", [0]⟩, ⟨"n3", [3]⟩] := by
  decide

/-- C3 (amended): the duplicate group for A consists of the entries at
positions 0, 1, 3; the survivor is the entry at position 1 (first-fetched
among the `added_at` tie with position 3); and the returned instructions
are `[{n3, [3]}, {n0, [0]}]` — one per removed entry, ordered by the
sorted group, not by position. -/
theorem c3_scenario :
    find_duplicates_by_external_id c3Tracks = [⟨"n3", [3]⟩, ⟨"n0", [0]⟩] ∧
      (keyGroup "A" (get_tracks_info c3Tracks)).map (fun t => t.position) = [0, 1, 3] ∧
      (sortAdded (keyGroup "A" (get_tracks_info c3Tracks))).head? =
        some ⟨some "A", "n1", 1, 1⟩ := by
  decide

/-- The snapshot positions named by the returned removal instructions. -/
def removedPositions (tracks : List Item) : List Nat :=
  (find_duplicates_by_external_id tracks).flatMap (fun i => i.positions)

/-- Delete the entries sitting at the listed snapshot positions, with `pos`
carrying the enumeration index. -/
def removeAtPositions_go (P : List Nat) : Nat → List Item → List Item
  | _, [] => []
  | pos, t :: ts =>
    if pos ∈ P then removeAtPositions_go P (pos + 1) ts
    else t :: removeAtPositions_go P (pos + 1) ts

/-- The conceptual removal of C4: drop from the snapshot exactly the
entries at the positions listed in the instructions, yielding the
re-indexed next snapshot. -/
def applyRemovals (tracks : List Item) : List Item :=
  removeAtPositions_go (removedPositions tracks) 0 tracks

/-- Number of items carrying external id `k`. -/
def countKey (k : String) (tracks : List Item) : Nat :=
  tracks.countP (fun t => decide (t.track.external_id = some k))

theorem keyGroup_go_length (k : String) :
    ∀ (pos : Nat) (l : List Item),
      (keyGroup k (get_tracks_info_go pos l)).length = countKey k l := by
  intro pos l
  induction l generalizing pos with
  | nil => rfl
  | cons t ts ih =>
    simp only [get_tracks_info_go, keyGroup, countKey, List.filter_cons, List.countP_cons]
    by_cases h : t.track.external_id = some k
    · simpa [h, keyGroup, countKey] using ih (pos + 1)
    · simpa [h, keyGroup, countKey] using ih (pos + 1)

theorem get_tracks_info_go_positions :
    ∀ (pos : Nat) (l : List Item),
      (get_tracks_info_go pos l).map (fun t => t.position) = List.range' pos l.length := by
  intro pos l
  induction l generalizing pos with
  | nil => rfl
  | cons t ts ih => simp [get_tracks_info_go, List.range'_succ, ih]

theorem get_tracks_info_nodup (tracks : List Item) : (get_tracks_info tracks).Nodup := by
  have h : ((get_tracks_info tracks).map (fun t => t.position)).Nodup := by
    rw [get_tracks_info, get_tracks_info_go_positions]
    exact List.nodup_range' _ _
  exact h.of_map

theorem position_inj (tracks : List Item) {a b : TrackInfo}
    (ha : a ∈ get_tracks_info tracks) (hb : b ∈ get_tracks_info tracks)
    (h : a.position = b.position) : a = b := by
  have hnd : ((get_tracks_info tracks).map (fun t => t.position)).Nodup := by
    rw [get_tracks_info, get_tracks_info_go_positions]
    exact List.nodup_range' _ _
  exact List.inj_on_of_nodup_map hnd ha hb h

theorem mem_firstSeenKeys (k : String) :
    ∀ ti : List TrackInfo, k ∈ firstSeenKeys ti ↔ ∃ t ∈ ti, t.external_id = some k := by
  intro ti
  induction ti with
  | nil => simp [firstSeenKeys]
  | cons t ts ih =>
    cases ht : t.external_id with
    | none =>
      rw [firstSeenKeys_cons_none ht, ih]
      constructor
      · rintro ⟨u, hu, hext⟩
        exact ⟨u, by simp [hu], hext⟩
      · rintro ⟨u, hu, hext⟩
        rcases List.mem_cons.mp hu with rfl | hu
        · rw [ht] at hext; cases hext
        · exact ⟨u, hu, hext⟩
    | some k0 =>
      rw [firstSeenKeys_cons_some ht]
      constructor
      · intro h
        rcases List.mem_cons.mp h with rfl | h
        · exact ⟨t, by simp, ht⟩
        · have hk : k ∈ firstSeenKeys ts := (List.mem_filter.mp h).1
          rcases ih.mp hk with ⟨u, hu, hext⟩
          exact ⟨u, by simp [hu], hext⟩
      · rintro ⟨u, hu, hext⟩
        rcases List.mem_cons.mp hu with rfl | hu
        · rw [ht] at hext
          injection hext with h0
          simp [h0]
        · by_cases hkk : k = k0
          · simp [hkk]
          · refine List.mem_cons.mpr (Or.inr (List.mem_filter.mpr ⟨ih.mpr ⟨u, hu, hext⟩, ?_⟩))
            simp [hkk]

/-- If every external id occurs at most once, the deduplicator reports
nothing. -/
theorem find_duplicates_eq_nil_of_counts (tracks : List Item)
    (h : ∀ k, countKey k tracks ≤ 1) :
    find_duplicates_by_external_id tracks = [] := by
  rw [find_duplicates_eq_spec]
  simp only [findDuplicatesSpec]
  rw [List.flatMap_eq_nil_iff]
  intro k hk
  have hle : (keyGroup k (get_tracks_info tracks)).length ≤ 1 := by
    rw [get_tracks_info, keyGroup_go_length]
    exact h k
  rw [if_neg (by omega)]

theorem mem_sortAdded (l : List TrackInfo) (a : TrackInfo) :
    a ∈ sortAdded l ↔ a ∈ l := (sortAdded_perm l).mem_iff

/-- Every non-survivor of an oversized group has its position listed in the
returned instructions. -/
theorem position_mem_removedPositions (tracks : List Item) (k : String)
    (hlen : 1 < (keyGroup k (get_tracks_info tracks)).length) {t : TrackInfo}
    (ht : t ∈ (sortAdded (keyGroup k (get_tracks_info tracks))).drop 1) :
    t.position ∈ removedPositions tracks := by
  unfold removedPositions
  rw [find_duplicates_eq_spec]
  simp only [findDuplicatesSpec, List.mem_flatMap]
  have hkmem : k ∈ firstSeenKeys (get_tracks_info tracks) := by
    have hne : keyGroup k (get_tracks_info tracks) ≠ [] := by
      intro h0
      rw [h0] at hlen
      simp at hlen
    rcases List.exists_mem_of_ne_nil _ hne with ⟨u, hu⟩
    have hu' : u ∈ get_tracks_info tracks := List.mem_of_mem_filter hu
    have hext : u.external_id = some k := by
      have := List.mem_filter.mp hu
      simpa using this.2
    exact (mem_firstSeenKeys k _).mpr ⟨u, hu', hext⟩
  refine ⟨⟨t.uri, [t.position]⟩, ⟨k, hkmem, ?_⟩, by simp⟩
  rw [if_pos hlen]
  exact List.mem_map.mpr ⟨t, ht, rfl⟩

theorem countKey_cons (k : String) (t : Item) (ts : List Item) :
    countKey k (t :: ts) =
      countKey k ts + (if t.track.external_id = some k then 1 else 0) := by
  simp [countKey, List.countP_cons]

theorem countKey_removeAt (k : String) (P : List Nat) :
    ∀ (pos : Nat) (l : List Item),
      countKey k (removeAtPositions_go P pos l) =
        ((get_tracks_info_go pos l).filter
          (fun t => decide (t.external_id = some k) &&
            decide (t.position ∉ P))).length := by
  intro pos l
  induction l generalizing pos with
  | nil => rfl
  | cons t ts ih =>
    simp only [removeAtPositions_go, get_tracks_info_go, List.filter_cons]
    by_cases hP : pos ∈ P
    · rw [if_pos hP, ih (pos + 1)]
      simp [hP]
    · rw [if_neg hP, countKey_cons, ih (pos + 1)]
      by_cases hk : t.track.external_id = some k
      · simp [hk, hP]
      · simp [hk]

theorem length_le_one_of_all_eq {l : List TrackInfo} (hnd : l.Nodup)
    (h0 : TrackInfo) (h : ∀ a ∈ l, a = h0) : l.length ≤ 1 := by
  cases l with
  | nil => simp
  | cons a l =>
    cases l with
    | nil => simp
    | cons b l =>
      exfalso
      have hab : a = b := (h a (by simp)).trans (h b (by simp)).symm
      have := (List.nodup_cons.mp hnd).1
      exact this (by simp [hab])

/-- C4: deleting exactly the entries at the positions listed in the
returned instructions and re-running `find_duplicates_by_external_id` on
the re-indexed snapshot yields an empty instruction list. -/
theorem c4_find_duplicates_idempotent (tracks : List Item) :
    find_duplicates_by_external_id (applyRemovals tracks) = [] := by
  apply find_duplicates_eq_nil_of_counts
  intro k
  have happ : applyRemovals tracks
      = removeAtPositions_go (removedPositions tracks) 0 tracks := rfl
  rw [happ, countKey_removeAt]
  have hgo : get_tracks_info_go 0 tracks = get_tracks_info tracks := rfl
  rw [hgo]
  have hsplit : (get_tracks_info tracks).filter
      (fun t => decide (t.external_id = some k) &&
        decide (t.position ∉ removedPositions tracks)) =
      (keyGroup k (get_tracks_info tracks)).filter
        (fun t => decide (t.position ∉ removedPositions tracks)) := by
    rw [keyGroup, List.filter_filter]
    refine List.filter_congr ?_
    intro t ht
    rw [Bool.and_comm]
  rw [hsplit]
  by_cases hlen : 1 < (keyGroup k (get_tracks_info tracks)).length
  · have hgnd : (keyGroup k (get_tracks_info tracks)).Nodup :=
      (List.filter_sublist _).nodup (get_tracks_info_nodup tracks)
    obtain ⟨h0, t0, hsort⟩ :
        ∃ h0 t0, sortAdded (keyGroup k (get_tracks_info tracks)) = h0 :: t0 := by
      have hlft : 0 < (sortAdded (keyGroup k (get_tracks_info tracks))).length := by
        rw [sortAdded_length]
        omega
      cases hsg : sortAdded (keyGroup k (get_tracks_info tracks)) with
      | nil => rw [hsg] at hlft; simp at hlft
      | cons a b => exact ⟨a, b, rfl⟩
    refine length_le_one_of_all_eq (hgnd.filter _) h0 ?_
    intro a ha
    have hag : a ∈ keyGroup k (get_tracks_info tracks) := List.mem_of_mem_filter ha
    have hanotP : a.position ∉ removedPositions tracks := by
      simpa using (List.mem_filter.mp ha).2
    have hnotdrop : a ∉ (sortAdded (keyGroup k (get_tracks_info tracks))).drop 1 := by
      intro hdrop
      exact hanotP (position_mem_removedPositions tracks k hlen hdrop)
    have hmemsort : a ∈ sortAdded (keyGroup k (get_tracks_info tracks)) :=
      (mem_sortAdded _ a).mpr hag
    rw [hsort] at hmemsort hnotdrop
    rcases List.mem_cons.mp hmemsort with rfl | hmem
    · rfl
    · exact absurd (by simpa using hmem) hnotdrop
  · have hfle : ((keyGroup k (get_tracks_info tracks)).filter
        (fun t => decide (t.position ∉ removedPositions tracks))).length ≤
        (keyGroup k (get_tracks_info tracks)).length :=
      List.length_filter_le _ _
    omega

/-- Structural core of `make_chunks`: `fuel` bounds the number of slices;
the wrapper passes the list length, which suffices whenever the chunk size
is positive (each step consumes at least one element). -/
def chunksGo {α : Type} (n : Nat) : Nat → List α → List (List α)
  | 0, _ => []
  | _ + 1, [] => []
  | fuel + 1, x :: xs => (x :: xs).take n :: chunksGo n fuel ((x :: xs).drop n)

/-- `make_chunks(list_, n)` (utils.py lines 337-348): the successive slices
`list_[i : i + n]` for `i = 0, n, 2n, ... < len(list_)`.  For `n = 0`
Python's `range(0, len, 0)` raises `ValueError` when the generator is
first pulled; that case yields no chunks here and is excluded by the
`0 < n` hypotheses of the theorems about this function. -/
def make_chunks {α : Type} (list_ : List α) (n : Nat) : List (List α) :=
  if n = 0 then [] else chunksGo n list_.length list_

theorem chunksGo_fuel {α : Type} (n : Nat) (hn : n ≠ 0) :
    ∀ (fuel : Nat) (l : List α), l.length ≤ fuel →
      chunksGo n fuel l = chunksGo n l.length l := by
  intro fuel
  induction fuel using Nat.strong_induction_on with
  | _ fuel ih =>
    intro l hl
    match fuel, l with
    | 0, l =>
      have : l = [] := List.eq_nil_of_length_eq_zero (Nat.le_zero.mp hl)
      subst this
      rfl
    | f + 1, [] => rfl
    | f + 1, x :: xs =>
      have hxs : xs.length ≤ f := by simpa using hl
      have hd : ((x :: xs).drop n).length ≤ xs.length := by
        simp only [List.length_drop, List.length_cons]
        omega
      have h1 : chunksGo n f ((x :: xs).drop n)
          = chunksGo n ((x :: xs).drop n).length ((x :: xs).drop n) :=
        ih f (by omega) _ (le_trans hd hxs)
      have h2 : chunksGo n xs.length ((x :: xs).drop n)
          = chunksGo n ((x :: xs).drop n).length ((x :: xs).drop n) :=
        ih xs.length (by omega) _ hd
      show (x :: xs).take n :: chunksGo n f ((x :: xs).drop n)
          = (x :: xs).take n :: chunksGo n xs.length ((x :: xs).drop n)
      rw [h1, h2]

theorem make_chunks_nil {α : Type} (n : Nat) : make_chunks ([] : List α) n = [] := by
  unfold make_chunks
  by_cases h : n = 0 <;> simp [h, chunksGo]

theorem make_chunks_cons {α : Type} (n : Nat) (hn : n ≠ 0) (x : α) (xs : List α) :
    make_chunks (x :: xs) n = (x :: xs).take n :: make_chunks ((x :: xs).drop n) n := by
  unfold make_chunks
  rw [if_neg hn, if_neg hn]
  show (x :: xs).take n :: chunksGo n xs.length ((x :: xs).drop n) = _
  congr 1
  apply chunksGo_fuel n hn
  simp only [List.length_drop, List.length_cons]
  omega

theorem make_chunks_props {α : Type} (n : Nat) (hn : n ≠ 0) :
    ∀ s : List α,
      (make_chunks s n).flatten = s ∧
        (∀ c ∈ make_chunks s n, c.length ≤ n) ∧
        (∀ c ∈ (make_chunks s n).dropLast, c.length = n) := by
  have key : ∀ (m : Nat) (t : List α), t.length = m →
      (make_chunks t n).flatten = t ∧
        (∀ c ∈ make_chunks t n, c.length ≤ n) ∧
        (∀ c ∈ (make_chunks t n).dropLast, c.length = n) := by
    intro m
    induction m using Nat.strong_induction_on with
    | _ m ih =>
      intro t ht
      subst ht
      cases t with
      | nil => simp [make_chunks_nil]
      | cons x xs =>
        rw [make_chunks_cons n hn]
        have hdlen : ((x :: xs).drop n).length < (x :: xs).length := by
          simp only [List.length_drop, List.length_cons]
          omega
        obtain ⟨ihj, ihle, ihlast⟩ :=
          ih ((x :: xs).drop n).length hdlen ((x :: xs).drop n) rfl
        refine ⟨?_, ?_, ?_⟩
        · simp [ihj]
        · intro c hc
          rcases List.mem_cons.mp hc with rfl | hc
          · simp [Nat.min_le_left n (x :: xs).length]
          · exact ihle c hc
        · intro c hc
          cases hcd : make_chunks ((x :: xs).drop n) n with
          | nil =>
            rw [hcd] at hc
            simp at hc
          | cons y ys =>
            rw [hcd] at hc
            rw [List.dropLast_cons₂] at hc
            rcases List.mem_cons.mp hc with rfl | hc
            · have hd_ne : (x :: xs).drop n ≠ [] := by
                intro h0
                rw [h0, make_chunks_nil] at hcd
                cases hcd
              have hlen : n < (x :: xs).length := by
                rcases Nat.lt_or_ge n (x :: xs).length with h | h
                · exact h
                · exact absurd (List.drop_eq_nil_of_le h) hd_ne
              simp only [List.length_cons] at hlen
              simp [List.length_take]
              omega
            · rw [← hcd] at hc
              exact ihlast c hc
  intro s
  exact key s.length s rfl

/-- C6: for positive `n`, concatenating the chunks of `make_chunks s n`
reproduces `s`; every chunk has length at most `n`; every chunk except
possibly the last has length exactly `n`; and the empty list yields zero
chunks. -/
theorem c6_make_chunks_spec {α : Type} (s : List α) (n : Nat) (h : 0 < n) :
    (make_chunks s n).flatten = s ∧
      (∀ c ∈ make_chunks s n, c.length ≤ n) ∧
      (∀ c ∈ (make_chunks s n).dropLast, c.length = n) ∧
      make_chunks ([] : List α) n = [] := by
  obtain ⟨h1, h2, h3⟩ := make_chunks_props n (Nat.pos_iff_ne_zero.mp h) s
  exact ⟨h1, h2, h3, make_chunks_nil n⟩

/-- Witness for `c6_make_chunks_spec` on the spec's own scenario
`chunk([1,2,3,4,5], 2)`. -/
theorem c6_witness :
    0 < 2 ∧
      ((make_chunks [1, 2, 3, 4, 5] 2).flatten = [1, 2, 3, 4, 5] ∧
        (∀ c ∈ make_chunks [1, 2, 3, 4, 5] 2, c.length ≤ 2) ∧
        (∀ c ∈ (make_chunks [1, 2, 3, 4, 5] 2).dropLast, c.length = 2) ∧
        make_chunks ([] : List Nat) 2 = []) :=
  ⟨by decide, c6_make_chunks_spec [1, 2, 3, 4, 5] 2 (by decide)⟩

/-- The parameters of one `client.recommendations(...)` provider call — the
validated payload of `get_recommendations`.  An `Except.error` result
models the `ValueError` raised before this payload is ever built, hence
before any network call is made. -/
structure RecRequest where
  seed_tracks : Option (List String)
  seed_genres : Option (List String)
  limit : Nat
  deriving DecidableEq

/-- The validation prologue of `get_recommendations` (utils.py lines
103-142): Python's falsy test `not seed_tracks` holds for both `None` and
`[]`, and `len(seed_tracks or [])` reads `None` as `[]`.  The `.ok`
payload is the provider call issued after validation passes. -/
def get_recommendations (seed_tracks seed_genres : Option (List String))
    (limit : Nat) : Except String RecRequest :=
  if 100 < limit then .error "limit must be less than or equal to 100"
  else if (seed_tracks.getD []).isEmpty && (seed_genres.getD []).isEmpty then
    .error "Must provide at least one seed track or genre"
  else if MAX_SEEDS < (seed_tracks.getD []).length + (seed_genres.getD []).length then
    .error "Total number of seeds must be less than or equal to 5"
  else .ok ⟨seed_tracks, seed_genres, limit⟩

/-- C7: `get_recommendations` raises a `ValueError` iff `limit > 100`, or
both seed arguments are falsy (absent or empty), or the seed counts sum to
more than `MAX_SEEDS = 5`; when it raises, no provider-call payload is
produced, so the failure precedes any network call. -/
theorem c7_get_recommendations_validation
    (seed_tracks seed_genres : Option (List String)) (limit : Nat) :
    (∃ e, get_recommendations seed_tracks seed_genres limit = .error e) ↔
      (100 < limit ∨
        (seed_tracks.getD [] = [] ∧ seed_genres.getD [] = []) ∨
        MAX_SEEDS < (seed_tracks.getD []).length + (seed_genres.getD []).length) := by
  unfold get_recommendations
  split_ifs with h1 h2 h3
  · simp [h1]
  · rw [Bool.and_eq_true, List.isEmpty_iff, List.isEmpty_iff] at h2
    simp [h2]
  · simp [h3]
  · rw [Bool.and_eq_true, List.isEmpty_iff, List.isEmpty_iff] at h2
    constructor
    · rintro ⟨e, he⟩
      cases he
    · intro h
      rcases h with h | h | h
      · exact absurd h h1
      · exact absurd h h2
      · exact absurd h h3

/-- `itertools.zip_longest(xs, ys)` with the default `fillvalue=None`,
specialised to two sequences, with explicit `Option` padding. -/
def zipLongest {α β : Type} : List α → List β → List (Option α × Option β)
  | [], bs => bs.map (fun b => (none, some b))
  | a :: as, [] => (some a, none) :: zipLongest as []
  | a :: as, b :: bs => (some a, some b) :: zipLongest as bs

/-- `all_candidates.update({c["id"] for c in candidates})`: insert the ids
one by one, dropping ids already accumulated.  A CPython `set` fixes no
documented iteration order; it is modelled in first-insertion order, and
only order-independent facts (membership, cardinality, distinctness) are
proved about this accumulator. -/
def setUpdate (acc : List String) (ids : List String) : List String :=
  ids.foldl (fun a i => if i ∈ a then a else a ++ [i]) acc

/-- The `for s_uris, s_genres in zip_longest(seed_uris, [seed_genres] *
max_tries)` loop of utils.py lines 171-192, recursing over the zipped
pairs.  `tries` counts the attempts already made, `oracle` supplies the
provider's response to the attempt with the given index, and the result
collects the issued provider requests, the accumulated candidate ids and
the pending exception, if any (an attempt whose validation raises issues
no request and ends the loop). -/
def recLoop (allTracks : List Item) (oracle : Nat → List Track)
    (limit max_tries : Nat) :
    List (Option (List String) × Option (List String)) → Nat → List String →
      List RecRequest × List String × Option String
  | [], _, acc => ([], acc, none)
  | (s_uris, s_genres) :: rest, tries, acc =>
    match get_recommendations s_uris s_genres 100 with
    | .error e => ([], acc, some e)
    | .ok req =>
      let candidates := filter_out_duplicates allTracks ((oracle tries).map Sum.inr)
      let acc' := setUpdate acc (candidates.map (fun c => c.id))
      if limit ≤ acc'.length ∨ max_tries ≤ tries + 1 then ([req], acc', none)
      else
        match recLoop allTracks oracle limit max_tries rest (tries + 1) acc' with
        | (reqs, accF, err) => (req :: reqs, accF, err)

/-- The zipped seed pairs of utils.py line 171, reduced to the values the
loop body passes to `get_recommendations`: seed chunks are the target's
native ids in reverse fetch order, split into groups of
`MAX_SEEDS - len(seed_genres or [])`; they are paired positionally with
`[seed_genres] * max_tries`, a padded right entry standing for `None`. -/
def recPairs (allTracks : List Item) (seed_genres : Option (List String))
    (max_tries : Nat) : List (Option (List String) × Option (List String)) :=
  let all_uris := (allTracks.map (fun t => t.track.id)).reverse
  (zipLongest (make_chunks all_uris (MAX_SEEDS - (seed_genres.getD []).length))
      (List.replicate max_tries seed_genres)).map (fun p => (p.1, p.2.join))

/-- `add_recommendations_to_all_time_playlist` (utils.py lines 145-203),
with the fetched playlist contents passed in as `allTracks` and the
provider's recommendation batches supplied by `oracle`.  The first
component lists the provider recommendation requests issued; the second is
either the list of track ids passed to `playlist_add_items` and returned
(`.ok []` meaning no append call was made) or the pending exception.  When
`seed_genres` supplies `MAX_SEEDS` or more entries, the chunk size
`MAX_SEEDS - len(seed_genres)` is non-positive and Python's `range` raises
`ValueError` on the first loop iteration, before any request. -/
def add_recommendations_to_all_time_playlist (allTracks : List Item)
    (oracle : Nat → List Track) (limit : Nat)
    (seed_genres : Option (List String)) (max_tries : Nat) :
    List RecRequest × Except String (List String) :=
  if MAX_SEEDS ≤ (seed_genres.getD []).length then
    ([], .error "range() arg 3 must not be zero")
  else
    match recLoop allTracks oracle limit max_tries
        (recPairs allTracks seed_genres max_tries) 0 [] with
    | (reqs, _, some e) => (reqs, .error e)
    | (reqs, acc, none) =>
      if acc.isEmpty then (reqs, .ok [])
      else (reqs, .ok (acc.take limit))

theorem setUpdate_nodup (ids : List String) :
    ∀ acc : List String, acc.Nodup → (setUpdate acc ids).Nodup := by
  induction ids with
  | nil => intro acc h; exact h
  | cons i ids ih =>
    intro acc h
    show (setUpdate (if i ∈ acc then acc else acc ++ [i]) ids).Nodup
    by_cases hi : i ∈ acc
    · rw [if_pos hi]
      exact ih acc h
    · rw [if_neg hi]
      refine ih _ ?_
      simp [List.nodup_append, h, hi]

theorem recLoop_acc_nodup (allTracks : List Item) (oracle : Nat → List Track)
    (limit max_tries : Nat) :
    ∀ (pairs : List (Option (List String) × Option (List String)))
      (tries : Nat) (acc : List String), acc.Nodup →
      ((recLoop allTracks oracle limit max_tries pairs tries acc).2.1).Nodup := by
  intro pairs
  induction pairs with
  | nil => intro tries acc h; exact h
  | cons p rest ih =>
    intro tries acc h
    obtain ⟨s_uris, s_genres⟩ := p
    show ((match get_recommendations s_uris s_genres 100 with
      | .error e => (([] : List RecRequest), acc, some e)
      | .ok req =>
        let candidates := filter_out_duplicates allTracks ((oracle tries).map Sum.inr)
        let acc' := setUpdate acc (candidates.map (fun c : Track => c.id))
        if limit ≤ acc'.length ∨ max_tries ≤ tries + 1 then ([req], acc', none)
        else
          match recLoop allTracks oracle limit max_tries rest (tries + 1) acc' with
          | (reqs, accF, err) => (req :: reqs, accF, err)).2.1).Nodup
    cases hgr : get_recommendations s_uris s_genres 100 with
    | error e => exact h
    | ok req =>
      simp only
      have hacc' := setUpdate_nodup
        ((filter_out_duplicates allTracks ((oracle tries).map Sum.inr)).map
          (fun c => c.id)) acc h
      by_cases hstop : limit ≤ (setUpdate acc
          ((filter_out_duplicates allTracks ((oracle tries).map Sum.inr)).map
            (fun c => c.id))).length ∨ max_tries ≤ tries + 1
      · rw [if_pos hstop]
        exact hacc'
      · rw [if_neg hstop]
        have hrec := ih (tries + 1) _ hacc'
        rcases hrl : recLoop allTracks oracle limit max_tries rest (tries + 1)
          (setUpdate acc ((filter_out_duplicates allTracks
            ((oracle tries).map Sum.inr)).map (fun c => c.id))) with ⟨reqs, accF, err⟩
        rw [hrl] at hrec
        rw [hrl]
        simpa using hrec

/-- C10: the list of track ids returned by
`add_recommendations_to_all_time_playlist` (the list passed to the
`playlist_add_items` append call) is pairwise distinct: candidates are
accumulated through a set before the first `limit` of them are selected. -/
theorem c10_recommendations_distinct (allTracks : List Item)
    (oracle : Nat → List Track) (limit : Nat)
    (seed_genres : Option (List String)) (max_tries : Nat) (l : List String)
    (h : (add_recommendations_to_all_time_playlist allTracks oracle limit
      seed_genres max_tries).2 = .ok l) :
    l.Nodup := by
  unfold add_recommendations_to_all_time_playlist at h
  by_cases hg : MAX_SEEDS ≤ (seed_genres.getD []).length
  · rw [if_pos hg] at h
    cases h
  · rw [if_neg hg] at h
    have hnd := recLoop_acc_nodup allTracks oracle limit max_tries
      (recPairs allTracks seed_genres max_tries) 0 [] (by simp)
    rcases hrl : recLoop allTracks oracle limit max_tries
        (recPairs allTracks seed_genres max_tries) 0 [] with ⟨reqs, acc, err⟩
    rw [hrl] at h hnd
    cases err with
    | some e => cases h
    | none =>
      simp only at h hnd
      by_cases hemp : acc.isEmpty
      · rw [if_pos hemp] at h
        injection h with h1
        exact h1 ▸ List.nodup_nil
      · rw [if_neg hemp] at h
        injection h with h1
        exact h1 ▸ (List.take_sublist _ _).nodup hnd

/-- Witness for `c10_recommendations_distinct` at a concrete run: an empty
target playlist, genre seeds only, a single try returning two tracks. -/
theorem c10_witness : (["a", "b"] : List String).Nodup :=
  c10_recommendations_distinct [] (fun _ => [⟨some "I1", "a"⟩, ⟨some "I2", "b"⟩])
    5 (some ["rock"]) 1 ["a", "b"] (by rfl)

theorem get_recommendations_ok {a b : Option (List String)} {c : Nat}
    {req : RecRequest} (h : get_recommendations a b c = .ok req) :
    req = ⟨a, b, c⟩ := by
  unfold get_recommendations at h
  split_ifs at h
  injection h with h1
  exact h1.symm

theorem zipLongest_length {α β : Type} :
    ∀ (as : List α) (bs : List β),
      (zipLongest as bs).length = max as.length bs.length := by
  intro as
  induction as with
  | nil => intro bs; simp [zipLongest]
  | cons a as ih =>
    intro bs
    cases bs with
    | nil =>
      show (zipLongest as []).length + 1 = _
      rw [ih []]
      simp
    | cons b bs =>
      show (zipLongest as bs).length + 1 = _
      rw [ih bs]
      simp only [List.length_cons]
      omega

theorem recPairs_length (allTracks : List Item)
    (seed_genres : Option (List String)) (max_tries : Nat) :
    max_tries ≤ (recPairs allTracks seed_genres max_tries).length := by
  unfold recPairs
  rw [List.length_map, zipLongest_length, List.length_replicate]
  omega

theorem recLoop_length_le (allTracks : List Item) (oracle : Nat → List Track)
    (limit max_tries : Nat) :
    ∀ (pairs : List (Option (List String) × Option (List String)))
      (tries : Nat) (acc : List String), tries < max_tries →
      (recLoop allTracks oracle limit max_tries pairs tries acc).1.length ≤
        max_tries - tries := by
  intro pairs
  induction pairs with
  | nil =>
    intro tries acc h
    simp [recLoop]
  | cons p rest ih =>
    intro tries acc h
    obtain ⟨su, sg⟩ := p
    simp only [recLoop]
    cases hgr : get_recommendations su sg 100 with
    | error e => simp
    | ok req =>
      simp only
      by_cases hstop : limit ≤ (setUpdate acc ((filter_out_duplicates allTracks
          ((oracle tries).map Sum.inr)).map (fun c => c.id))).length ∨
          max_tries ≤ tries + 1
      · rw [if_pos hstop]
        simp only [List.length_cons, List.length_nil]
        omega
      · rw [if_neg hstop]
        push_neg at hstop
        have hlt : tries + 1 < max_tries := hstop.2
        have hrec := ih (tries + 1) (setUpdate acc ((filter_out_duplicates allTracks
          ((oracle tries).map Sum.inr)).map (fun c => c.id))) hlt
        rcases hrl : recLoop allTracks oracle limit max_tries rest (tries + 1)
          (setUpdate acc ((filter_out_duplicates allTracks
            ((oracle tries).map Sum.inr)).map (fun c => c.id))) with ⟨reqs, accF, err⟩
        rw [hrl] at hrec
        rw [hrl]
        simp only [List.length_cons] at hrec ⊢
        omega

/-- The requests a loop run issues are exactly the validated versions of
the first so-many zipped seed pairs, in order, each with limit 100. -/
theorem recLoop_requests_eq (allTracks : List Item) (oracle : Nat → List Track)
    (limit max_tries : Nat) :
    ∀ (pairs : List (Option (List String) × Option (List String)))
      (tries : Nat) (acc : List String),
      (recLoop allTracks oracle limit max_tries pairs tries acc).1 =
        (pairs.take
          (recLoop allTracks oracle limit max_tries pairs tries acc).1.length).map
          (fun p => (⟨p.1, p.2, 100⟩ : RecRequest)) := by
  intro pairs
  induction pairs with
  | nil =>
    intro tries acc
    simp [recLoop]
  | cons p rest ih =>
    intro tries acc
    obtain ⟨su, sg⟩ := p
    simp only [recLoop]
    cases hgr : get_recommendations su sg 100 with
    | error e => simp
    | ok req =>
      simp only
      have hreq : req = ⟨su, sg, 100⟩ := get_recommendations_ok hgr
      by_cases hstop : limit ≤ (setUpdate acc ((filter_out_duplicates allTracks
          ((oracle tries).map Sum.inr)).map (fun c => c.id))).length ∨
          max_tries ≤ tries + 1
      · rw [if_pos hstop]
        simp [hreq]
      · rw [if_neg hstop]
        rcases hrl : recLoop allTracks oracle limit max_tries rest (tries + 1)
          (setUpdate acc ((filter_out_duplicates allTracks
            ((oracle tries).map Sum.inr)).map (fun c => c.id))) with ⟨reqs, accF, err⟩
        have hih := ih (tries + 1) (setUpdate acc ((filter_out_duplicates allTracks
          ((oracle tries).map Sum.inr)).map (fun c => c.id)))
        rw [hrl] at hih
        rw [hrl]
        simp only [List.length_cons, List.take_succ_cons, List.map_cons]
        rw [hreq]
        exact congrArg _ hih
  
/-- If the loop ends without exception after strictly fewer requests than
the remaining try budget, and the pair list covers that budget, then the
accumulated candidate set reached `limit`. -/
theorem recLoop_early_stop (allTracks : List Item) (oracle : Nat → List Track)
    (limit max_tries : Nat) :
    ∀ (pairs : List (Option (List String) × Option (List String)))
      (tries : Nat) (acc : List String),
      max_tries - tries ≤ pairs.length →
      (recLoop allTracks oracle limit max_tries pairs tries acc).2.2 = none →
      (recLoop allTracks oracle limit max_tries pairs tries acc).1.length <
        max_tries - tries →
      limit ≤ (recLoop allTracks oracle limit max_tries pairs tries acc).2.1.length := by
  intro pairs
  induction pairs with
  | nil =>
    intro tries acc hcov hnone hlt
    simp only [recLoop, List.length_nil] at hcov hlt
    omega
  | cons p rest ih =>
    intro tries acc hcov hnone hlt
    obtain ⟨su, sg⟩ := p
    simp only [recLoop] at hnone hlt ⊢
    cases hgr : get_recommendations su sg 100 with
    | error e =>
      rw [hgr] at hnone
      cases hnone
    | ok req =>
      rw [hgr] at hnone hlt
      simp only at hnone hlt ⊢
      by_cases hstop : limit ≤ (setUpdate acc ((filter_out_duplicates allTracks
          ((oracle tries).map Sum.inr)).map (fun c => c.id))).length ∨
          max_tries ≤ tries + 1
      · rw [if_pos hstop] at hlt ⊢
        simp only [List.length_cons, List.length_nil] at hlt
        rcases hstop with hstop | hstop
        · exact hstop
        · omega
      · rw [if_neg hstop] at hnone hlt ⊢
        rcases hrl : recLoop allTracks oracle limit max_tries rest (tries + 1)
          (setUpdate acc ((filter_out_duplicates allTracks
            ((oracle tries).map Sum.inr)).map (fun c => c.id))) with ⟨reqs, accF, err⟩
        have hih := ih (tries + 1) (setUpdate acc ((filter_out_duplicates allTracks
          ((oracle tries).map Sum.inr)).map (fun c => c.id)))
          (by simp only [List.length_cons] at hcov; omega)
        rw [hrl] at hih hnone hlt ⊢
        have hlt2 : reqs.length + 1 < max_tries - tries := by simpa using hlt
        refine hih ?_ ?_
        · exact hnone
        · show reqs.length < max_tries - (tries + 1)
          omega

/-- C8 counterexample input: a one-item playlist. -/
def c8Tracks : List Item := [⟨⟨some "I1", "x1"⟩, 1⟩]

/-- C8 counterexample: with `max_tries = 0` and a non-empty playlist the
loop still issues one recommendation request, because the
`tries >= max_tries` break is only evaluated at the end of the first loop
body; this refutes "at most max_tries requests" as universally stated. -/
theorem c8_counterexample :
    ¬((add_recommendations_to_all_time_playlist c8Tracks (fun _ => []) 5 none
      0).1.length ≤ 0) := by
  decide

/-- C8 (amended: restricted to `max_tries ≥ 1`, since for `max_tries = 0` a
non-empty playlist still triggers one request):
the loop issues at most `max_tries` provider requests; the issued requests
are exactly the leading zipped seed pairs — chunks of the reversed native
ids, of size `MAX_SEEDS` minus the genre-seed count, paired with the
repeated genre list — each with limit 100; a successful run returns at
most `limit` track ids; and a successful run that issued strictly fewer
than `max_tries` requests returns exactly `limit` ids, having stopped
because the accumulated candidate set reached `limit`. -/
theorem c8_recommendation_loop_bounds (allTracks : List Item)
    (oracle : Nat → List Track) (limit : Nat)
    (seed_genres : Option (List String)) (max_tries : Nat)
    (hmt : 1 ≤ max_tries) :
    (add_recommendations_to_all_time_playlist allTracks oracle limit seed_genres
        max_tries).1.length ≤ max_tries ∧
      (add_recommendations_to_all_time_playlist allTracks oracle limit seed_genres
          max_tries).1 =
        ((recPairs allTracks seed_genres max_tries).take
          (add_recommendations_to_all_time_playlist allTracks oracle limit
            seed_genres max_tries).1.length).map
          (fun p => (⟨p.1, p.2, 100⟩ : RecRequest)) ∧
      (∀ l, (add_recommendations_to_all_time_playlist allTracks oracle limit
        seed_genres max_tries).2 = .ok l → l.length ≤ limit) ∧
      (∀ l, (add_recommendations_to_all_time_playlist allTracks oracle limit
        seed_genres max_tries).2 = .ok l →
        (add_recommendations_to_all_time_playlist allTracks oracle limit
          seed_genres max_tries).1.length < max_tries → l.length = limit) := by
  by_cases hg : MAX_SEEDS ≤ (seed_genres.getD []).length
  · have hval : add_recommendations_to_all_time_playlist allTracks oracle limit
        seed_genres max_tries = ([], .error "range() arg 3 must not be zero") := by
      unfold add_recommendations_to_all_time_playlist
      rw [if_pos hg]
    rw [hval]
    refine ⟨by simp, by simp, ?_, ?_⟩
    · intro l h
      cases h
    · intro l h
      cases h
  · rcases hrl : recLoop allTracks oracle limit max_tries
        (recPairs allTracks seed_genres max_tries) 0 [] with ⟨reqs, acc, err⟩
    have hlen := recLoop_length_le allTracks oracle limit max_tries
      (recPairs allTracks seed_genres max_tries) 0 [] (by omega)
    rw [hrl] at hlen
    have hlen' : reqs.length ≤ max_tries := by
      have : max_tries - 0 = max_tries := by omega
      rw [this] at hlen
      exact hlen
    have hstruct := recLoop_requests_eq allTracks oracle limit max_tries
      (recPairs allTracks seed_genres max_tries) 0 []
    rw [hrl] at hstruct
    have hearly := recLoop_early_stop allTracks oracle limit max_tries
      (recPairs allTracks seed_genres max_tries) 0 []
      (by have := recPairs_length allTracks seed_genres max_tries; omega)
    rw [hrl] at hearly
    cases err with
    | some e =>
      have hval : add_recommendations_to_all_time_playlist allTracks oracle limit
          seed_genres max_tries = (reqs, .error e) := by
        unfold add_recommendations_to_all_time_playlist
        rw [if_neg hg, hrl]
      rw [hval]
      refine ⟨hlen', hstruct, ?_, ?_⟩
      · intro l h
        cases h
      · intro l h
        cases h
    | none =>
      by_cases hemp : acc.isEmpty
      · have hval : add_recommendations_to_all_time_playlist allTracks oracle limit
            seed_genres max_tries = (reqs, .ok []) := by
          unfold add_recommendations_to_all_time_playlist
          rw [if_neg hg, hrl]
          simp only
          rw [if_pos hemp]
        rw [hval]
        refine ⟨hlen', hstruct, ?_, ?_⟩
        · intro l h
          injection h with h1
          rw [← h1]
          simp
        · intro l h hfew
          injection h with h1
          have hfew' : reqs.length < max_tries := hfew
          have hlim : limit ≤ acc.length :=
            hearly rfl (show reqs.length < max_tries - 0 by omega)
          have hacc0 : acc.length = 0 := by
            rw [List.isEmpty_iff] at hemp
            simp [hemp]
          rw [← h1]
          simp
          omega
      · have hval : add_recommendations_to_all_time_playlist allTracks oracle limit
            seed_genres max_tries = (reqs, .ok (acc.take limit)) := by
          unfold add_recommendations_to_all_time_playlist
          rw [if_neg hg, hrl]
          simp only
          rw [if_neg hemp]
        rw [hval]
        refine ⟨hlen', hstruct, ?_, ?_⟩
        · intro l h
          injection h with h1
          rw [← h1]
          exact List.length_take_le _ _
        · intro l h hfew
          injection h with h1
          have hfew' : reqs.length < max_tries := hfew
          have hlim : limit ≤ acc.length :=
            hearly rfl (show reqs.length < max_tries - 0 by omega)
          rw [← h1]
          rw [List.length_take]
          omega

/-- Witness for `c8_recommendation_loop_bounds` at a concrete run:
an empty playlist, one genre seed, one permitted try. -/
theorem c8_witness :
    1 ≤ 1 ∧
      ((add_recommendations_to_all_time_playlist [] (fun _ => []) 5 (some ["rock"])
          1).1.length ≤ 1 ∧
        (add_recommendations_to_all_time_playlist [] (fun _ => []) 5 (some ["rock"])
            1).1 =
          ((recPairs [] (some ["rock"]) 1).take
            (add_recommendations_to_all_time_playlist [] (fun _ => []) 5
              (some ["rock"]) 1).1.length).map
            (fun p => (⟨p.1, p.2, 100⟩ : RecRequest)) ∧
        (∀ l, (add_recommendations_to_all_time_playlist [] (fun _ => []) 5
          (some ["rock"]) 1).2 = .ok l → l.length ≤ 5) ∧
        (∀ l, (add_recommendations_to_all_time_playlist [] (fun _ => []) 5
          (some ["rock"]) 1).2 = .ok l →
          (add_recommendations_to_all_time_playlist [] (fun _ => []) 5
            (some ["rock"]) 1).1.length < 1 → l.length = 5)) :=
  ⟨le_refl 1,
   c8_recommendation_loop_bounds [] (fun _ => []) 5 (some ["rock"]) 1 (le_refl 1)⟩
